import Mathlib

/-!
Verification of the simplex-constrained NSGA-II portfolio optimizer.

This file gives a shallow embedding of the algorithmic core of the
repository (the simplex genetic operators, the CVaR objective, the front
selection policy, the quality metrics, the hyperparameter configuration
store and its persist step, and the final composition step of the
optimizer), together with theorems settling the stated properties.

Modelling conventions:
* Machine floats are modelled by exact arithmetic (`ℚ` where the source
  code performs only field operations, `ℝ` where it takes square roots).
* Randomness is made explicit: a random draw (a Dirichlet sample, an SBX
  blend factor, a polynomial-mutation delta, a pair of gene indices, a
  Monte-Carlo sample set) becomes an explicit argument of the embedded
  function, and theorems quantify over it.
* numpy arrays become lists; `np.clip` with the scalar bounds used by the
  code becomes a componentwise clip between two rationals.
-/

namespace TCC

/-! ## Simplex population operators (`services/agmo/custom_crossover.py`)

`SimplexSampling._do` draws `X` from a Dirichlet distribution, clips to the
problem bounds and renormalizes.  `SimplexCrossover._do` renormalizes the
two parents, blends them with an SBX factor `beta`, clamps negatives,
normalizes, clips to the problem bounds and renormalizes.
`SimplexMutation._do` renormalizes the individual, transfers
`min(w_i, w_j) * 0.2 * delta` between two distinct genes, clamps
negatives, normalizes, clips and renormalizes.

Note that in `PersonalizedPortfolioProblem.__init__` the pymoo problem is
constructed with `xl=0.01, xu=1` (the arrays built from `peso_min` and
`peso_max` are not the ones passed to `super().__init__`), so the bounds
the operators clip to are `[0.01, 1]`, not `[peso_min, peso_max]`.
-/

/-- Componentwise `np.clip(x, lo, hi) = min(max(x, lo), hi)` for one entry. -/
def pyclip (lo hi x : ℚ) : ℚ := min (max x lo) hi

/-- `np.clip` of a vector with scalar bounds. -/
def clipList (lo hi : ℚ) (l : List ℚ) : List ℚ := l.map (pyclip lo hi)

/-- `x / x.sum()`: divide every component by the component sum. -/
def normalize (l : List ℚ) : List ℚ := l.map (fun c => c / l.sum)

/-- `np.maximum(x, 0)`: clamp negative components to zero. -/
def clampNonneg (l : List ℚ) : List ℚ := l.map (fun c => max c 0)

/-- `SimplexSampling._do`, applied to one Dirichlet draw `x`: clip to the
problem bounds and renormalize. -/
def simplexSampling (xl xu : ℚ) (x : List ℚ) : List ℚ :=
  normalize (clipList xl xu x)

/-- The two SBX children before clamping, as computed in
`SimplexCrossover._do`:
`c1 = 0.5*((1+beta)*p1 + (1-beta)*p2)`, `c2 = 0.5*((1-beta)*p1 + (1+beta)*p2)`. -/
def sbxChildren (beta : ℚ) (p1 p2 : List ℚ) : List ℚ × List ℚ :=
  (List.zipWith (fun a b => (1/2) * ((1 + beta) * a + (1 - beta) * b)) p1 p2,
   List.zipWith (fun a b => (1/2) * ((1 - beta) * a + (1 + beta) * b)) p1 p2)

/-- The post-processing applied to each child in `SimplexCrossover._do`:
clamp negatives, normalize, clip to the problem bounds, renormalize. -/
def postProcessChild (xl xu : ℚ) (c : List ℚ) : List ℚ :=
  normalize (clipList xl xu (normalize (clampNonneg c)))

/-- `SimplexCrossover._do` for one mating, with the random SBX factor
`beta` explicit: renormalize both parents, blend, then post-process both
children. -/
def simplexCrossover (xl xu beta : ℚ) (p1 p2 : List ℚ) : List ℚ × List ℚ :=
  let p1n := normalize p1
  let p2n := normalize p2
  let cs := sbxChildren beta p1n p2n
  (postProcessChild xl xu cs.1, postProcessChild xl xu cs.2)

/-- `SimplexMutation._do` for one individual, with the two random gene
indices `i ≠ j` and the polynomial-mutation draw `delta` explicit:
renormalize, transfer `min(w_i, w_j) * 0.2 * delta` from gene `i` to gene
`j`, clamp negatives, normalize, clip to the problem bounds, renormalize. -/
def simplexMutation (xl xu delta : ℚ) (i j : ℕ) (x : List ℚ) : List ℚ :=
  let y := normalize x
  let a := y.getD i 0
  let b := y.getD j 0
  let m := min a b * (2/10) * delta
  let y2 := (y.set i (a - m)).set j (b + m)
  postProcessChild xl xu y2

/-! ### Arithmetic facts about the operator building blocks -/

theorem sum_map_div (l : List ℚ) (s : ℚ) :
    (l.map (fun c => c / s)).sum = l.sum / s := by
  induction l with
  | nil => simp
  | cons a t ih => simp [ih, add_div]

theorem normalize_sum (l : List ℚ) (h : l.sum ≠ 0) : (normalize l).sum = 1 := by
  simp [normalize, sum_map_div, div_self h]

theorem normalize_length (l : List ℚ) : (normalize l).length = l.length := by
  simp [normalize]

theorem normalize_nonneg (l : List ℚ) (h : ∀ c ∈ l, 0 ≤ c) (hs : 0 < l.sum) :
    ∀ c ∈ normalize l, 0 ≤ c := by
  intro c hc
  simp only [normalize, List.mem_map] at hc
  obtain ⟨a, ha, rfl⟩ := hc
  exact div_nonneg (h a ha) hs.le

theorem clampNonneg_nonneg (l : List ℚ) : ∀ c ∈ clampNonneg l, 0 ≤ c := by
  intro c hc
  simp only [clampNonneg, List.mem_map] at hc
  obtain ⟨a, _, rfl⟩ := hc
  exact le_max_right a 0

theorem sum_le_clampNonneg_sum (l : List ℚ) : l.sum ≤ (clampNonneg l).sum := by
  have h : (l.map id).sum ≤ (l.map (fun c => max c 0)).sum :=
    List.sum_le_sum (fun i _ => le_max_left i 0)
  simpa [clampNonneg] using h

theorem exists_pos_of_sum_pos (l : List ℚ) (hs : 0 < l.sum) :
    ∃ c ∈ l, 0 < c := by
  by_contra hneg
  push_neg at hneg
  have h := List.sum_le_card_nsmul l 0 (fun x hx => hneg x hx)
  simp at h
  exact absurd hs (not_lt.mpr h)

theorem clipList_nonneg (xl xu : ℚ) (l : List ℚ) (h : ∀ c ∈ l, 0 ≤ c)
    (hu : 0 < xu) : ∀ c ∈ clipList xl xu l, 0 ≤ c := by
  intro c hc
  simp only [clipList, List.mem_map] at hc
  obtain ⟨a, ha, rfl⟩ := hc
  exact le_min (le_max_of_le_left (h a ha)) hu.le

theorem clipList_sum_pos (xl xu : ℚ) (l : List ℚ) (hu : 0 < xu)
    (hnn : ∀ c ∈ l, 0 ≤ c) (hs : 0 < l.sum) : 0 < (clipList xl xu l).sum := by
  obtain ⟨c, hc, hcpos⟩ := exists_pos_of_sum_pos l hs
  have hmem : pyclip xl xu c ∈ clipList xl xu l := List.mem_map_of_mem _ hc
  have hcpos' : 0 < pyclip xl xu c :=
    lt_min (lt_of_lt_of_le hcpos (le_max_left _ _)) hu
  have hle : pyclip xl xu c ≤ (clipList xl xu l).sum :=
    List.single_le_sum (clipList_nonneg xl xu l hnn hu) _ hmem
  exact lt_of_lt_of_le hcpos' hle

/-- The common tail of all three operators (clamp, normalize, clip,
normalize) turns any vector whose sum is positive into a vector of sum
exactly 1, provided the upper clip bound is positive. -/
theorem postProcessChild_sum (xl xu : ℚ) (c : List ℚ) (hu : 0 < xu)
    (hs : 0 < c.sum) : (postProcessChild xl xu c).sum = 1 := by
  have hclamp : 0 < (clampNonneg c).sum := lt_of_lt_of_le hs (sum_le_clampNonneg_sum c)
  have hn1 : (normalize (clampNonneg c)).sum = 1 := normalize_sum _ hclamp.ne'
  have hnn : ∀ x ∈ normalize (clampNonneg c), 0 ≤ x :=
    normalize_nonneg _ (clampNonneg_nonneg c) hclamp
  have hclipsum : 0 < (clipList xl xu (normalize (clampNonneg c))).sum := by
    apply clipList_sum_pos xl xu _ hu hnn
    rw [hn1]; norm_num
  exact normalize_sum _ hclipsum.ne'

theorem sbxChildren_sum (beta : ℚ) :
    ∀ (p1 p2 : List ℚ), p1.length = p2.length →
      (sbxChildren beta p1 p2).1.sum = (1/2) * ((1 + beta) * p1.sum + (1 - beta) * p2.sum) ∧
      (sbxChildren beta p1 p2).2.sum = (1/2) * ((1 - beta) * p1.sum + (1 + beta) * p2.sum) := by
  intro p1
  induction p1 with
  | nil =>
    intro p2 h
    cases p2 with
    | nil => simp [sbxChildren]
    | cons b bs => simp at h
  | cons a as ih =>
    intro p2 h
    cases p2 with
    | nil => simp at h
    | cons b bs =>
      have hlen : as.length = bs.length := by simpa using h
      obtain ⟨ih1, ih2⟩ := ih bs hlen
      constructor
      · simp only [sbxChildren, List.zipWith_cons_cons, List.sum_cons] at *
        rw [ih1]; ring
      · simp only [sbxChildren, List.zipWith_cons_cons, List.sum_cons] at *
        rw [ih2]; ring

/-- Transferring `m` from gene `i` to gene `j` (with `i ≠ j`, both in
bounds) leaves the component sum unchanged. -/
theorem mutationTransfer_sum (y : List ℚ) (i j : ℕ) (m : ℚ) (hij : i ≠ j)
    (hi : i < y.length) (hj : j < y.length) :
    ((y.set i (y.getD i 0 - m)).set j (y.getD j 0 + m)).sum = y.sum := by
  have h1 : (y.set i (y.getD i 0 - m)).sum = y.sum - m := by
    rw [List.sum_set', dif_pos hi, List.getD_eq_getElem y 0 hi]
    ring
  have hj' : j < (y.set i (y.getD i 0 - m)).length := by
    simpa [List.length_set] using hj
  rw [List.sum_set', dif_pos hj', h1]
  simp only [List.getElem_set_ne hij]
  rw [List.getD_eq_getElem y 0 hj]
  ring

/-- `SimplexSampling._do` output sums to 1 whenever the draw has
nonnegative components and positive sum, and the upper clip bound is
positive. -/
theorem simplexSampling_sum (xl xu : ℚ) (x : List ℚ) (hu : 0 < xu)
    (hnn : ∀ c ∈ x, 0 ≤ c) (hs : 0 < x.sum) :
    (simplexSampling xl xu x).sum = 1 :=
  normalize_sum _ (clipList_sum_pos xl xu x hu hnn hs).ne'

/-- Both `SimplexCrossover._do` children sum to 1 for any blend factor,
whenever both parents have nonnegative components and positive sums. -/
theorem simplexCrossover_sum (xl xu beta : ℚ) (p1 p2 : List ℚ) (hu : 0 < xu)
    (hnn1 : ∀ c ∈ p1, 0 ≤ c) (hnn2 : ∀ c ∈ p2, 0 ≤ c)
    (hs1 : 0 < p1.sum) (hs2 : 0 < p2.sum) (hlen : p1.length = p2.length) :
    (simplexCrossover xl xu beta p1 p2).1.sum = 1 ∧
    (simplexCrossover xl xu beta p1 p2).2.sum = 1 := by
  have hn1 : (normalize p1).sum = 1 := normalize_sum _ hs1.ne'
  have hn2 : (normalize p2).sum = 1 := normalize_sum _ hs2.ne'
  have hlen' : (normalize p1).length = (normalize p2).length := by
    simp [normalize_length, hlen]
  obtain ⟨h1, h2⟩ := sbxChildren_sum beta (normalize p1) (normalize p2) hlen'
  simp only [simplexCrossover]
  constructor
  · apply postProcessChild_sum _ _ _ hu
    rw [h1, hn1, hn2]; ring_nf; norm_num
  · apply postProcessChild_sum _ _ _ hu
    rw [h2, hn1, hn2]; ring_nf; norm_num

/-- `SimplexMutation._do` output sums to 1 for any delta and any two
distinct in-range gene indices, whenever the individual has nonnegative
components and positive sum. -/
theorem simplexMutation_sum (xl xu delta : ℚ) (i j : ℕ) (x : List ℚ)
    (hu : 0 < xu) (hij : i ≠ j) (hi : i < x.length) (hj : j < x.length)
    (hnn : ∀ c ∈ x, 0 ≤ c) (hs : 0 < x.sum) :
    (simplexMutation xl xu delta i j x).sum = 1 := by
  have hi' : i < (normalize x).length := by rw [normalize_length]; exact hi
  have hj' : j < (normalize x).length := by rw [normalize_length]; exact hj
  have hsum2 := mutationTransfer_sum (normalize x) i j
    (min ((normalize x).getD i 0) ((normalize x).getD j 0) * (2/10) * delta) hij hi' hj'
  simp only [simplexMutation]
  apply postProcessChild_sum _ _ _ hu
  rw [hsum2, normalize_sum _ hs.ne']
  norm_num

/-- C1, counterexample.  The claim asserts that every operator output has
all components inside the configured per-asset bounds
(`peso_min = 0.01`, `peso_max = 0.30`).  This fails already for
`SimplexSampling._do` on the simplex-valid Dirichlet draw
`[0.7, 0.1, 0.1, 0.1]`:  with the bounds the code actually passes to
pymoo (`xl = 0.01`, `xu = 1`) the draw is returned unchanged and keeps
its component `0.7 > 0.30`; and even under the claimed bounds
`[0.01, 0.30]`, clipping to `0.3` and renormalizing yields the component
`1/2 > 0.30`. -/
theorem claim1_counterexample :
    ([(7:ℚ)/10, 1/10, 1/10, 1/10].sum = 1 ∧
      ∀ c ∈ [(7:ℚ)/10, 1/10, 1/10, 1/10], 0 ≤ c) ∧
    simplexSampling (1/100) 1 [7/10, 1/10, 1/10, 1/10] =
      [7/10, 1/10, 1/10, 1/10] ∧
    ¬ (∀ c ∈ simplexSampling (1/100) 1 [7/10, 1/10, 1/10, 1/10], c ≤ 3/10) ∧
    simplexSampling (1/100) (3/10) [7/10, 1/10, 1/10, 1/10] =
      [1/2, 1/6, 1/6, 1/6] ∧
    ¬ (∀ c ∈ simplexSampling (1/100) (3/10) [7/10, 1/10, 1/10, 1/10], c ≤ 3/10) := by
  have e1 : simplexSampling (1/100) 1 [(7:ℚ)/10, 1/10, 1/10, 1/10] =
      [7/10, 1/10, 1/10, 1/10] := by
    norm_num [simplexSampling, clipList, pyclip, normalize, min_def, max_def]
  have e2 : simplexSampling (1/100) (3/10) [(7:ℚ)/10, 1/10, 1/10, 1/10] =
      [1/2, 1/6, 1/6, 1/6] := by
    norm_num [simplexSampling, clipList, pyclip, normalize, min_def, max_def]
  refine ⟨⟨by norm_num, by norm_num⟩, e1, ?_, e2, ?_⟩
  · rw [e1]
    intro h
    have h7 := h (7/10) (by simp)
    norm_num at h7
  · rw [e2]
    intro h
    have h5 := h (1/2) (by simp)
    norm_num at h5

/-- C1, amended.  For every genotype vector produced by initialization
(`SimplexSampling`), crossover (`SimplexCrossover`) or mutation
(`SimplexMutation`) from simplex-valid inputs, the output satisfies
`sum(weights) = 1` exactly (hence within `1e-6`); the per-component bound
`min_weight ≤ w_i ≤ max_weight` is NOT guaranteed, because the operators
clip to the pymoo problem bounds `[0.01, 1]` rather than
`[peso_min, peso_max]`, and the renormalization performed after clipping
can push components outside any clip bounds. -/
theorem claim1_theorem :
    (∀ (xl xu : ℚ) (x : List ℚ), 0 < xu → (∀ c ∈ x, 0 ≤ c) → x.sum = 1 →
      (simplexSampling xl xu x).sum = 1) ∧
    (∀ (xl xu beta : ℚ) (p1 p2 : List ℚ), 0 < xu →
      (∀ c ∈ p1, 0 ≤ c) → (∀ c ∈ p2, 0 ≤ c) →
      p1.sum = 1 → p2.sum = 1 → p1.length = p2.length →
      (simplexCrossover xl xu beta p1 p2).1.sum = 1 ∧
      (simplexCrossover xl xu beta p1 p2).2.sum = 1) ∧
    (∀ (xl xu delta : ℚ) (i j : ℕ) (x : List ℚ), 0 < xu → i ≠ j →
      i < x.length → j < x.length → (∀ c ∈ x, 0 ≤ c) → x.sum = 1 →
      (simplexMutation xl xu delta i j x).sum = 1) := by
  refine ⟨?_, ?_, ?_⟩
  · intro xl xu x hu hnn hs
    exact simplexSampling_sum xl xu x hu hnn (by rw [hs]; norm_num)
  · intro xl xu beta p1 p2 hu hnn1 hnn2 hs1 hs2 hlen
    exact simplexCrossover_sum xl xu beta p1 p2 hu hnn1 hnn2
      (by rw [hs1]; norm_num) (by rw [hs2]; norm_num) hlen
  · intro xl xu delta i j x hu hij hi hj hnn hs
    exact simplexMutation_sum xl xu delta i j x hu hij hi hj hnn
      (by rw [hs]; norm_num)

/-- C1, witness: the amended theorem applied to concrete simplex-valid
inputs with the code's clip bounds `xl = 0.01`, `xu = 1`. -/
theorem claim1_witness :
    (simplexSampling (1/100) 1 [7/10, 3/10]).sum = 1 ∧
    (simplexCrossover (1/100) 1 (3/2) [7/10, 3/10] [1/2, 1/2]).1.sum = 1 ∧
    (simplexCrossover (1/100) 1 (3/2) [7/10, 3/10] [1/2, 1/2]).2.sum = 1 ∧
    (simplexMutation (1/100) 1 (1/2) 0 1 [7/10, 3/10]).sum = 1 :=
  ⟨claim1_theorem.1 (1/100) 1 [7/10, 3/10] (by norm_num) (by norm_num) (by norm_num),
   (claim1_theorem.2.1 (1/100) 1 (3/2) [7/10, 3/10] [1/2, 1/2] (by norm_num)
     (by norm_num) (by norm_num) (by norm_num) (by norm_num) (by decide)).1,
   (claim1_theorem.2.1 (1/100) 1 (3/2) [7/10, 3/10] [1/2, 1/2] (by norm_num)
     (by norm_num) (by norm_num) (by norm_num) (by norm_num) (by decide)).2,
   claim1_theorem.2.2 (1/100) 1 (1/2) 0 1 [7/10, 3/10] (by norm_num)
     (by decide) (by decide) (by decide) (by norm_num) (by norm_num)⟩

/-- C6: for any two parent vectors that each sum to 1 and any blend
factor `beta` in `(0, 2)`, the pre-clip SBX children
`c1 = 0.5*((1+beta)*p1 + (1-beta)*p2)` and
`c2 = 0.5*((1-beta)*p1 + (1+beta)*p2)` each sum exactly to 1. -/
theorem claim6_theorem (beta : ℚ) (p1 p2 : List ℚ)
    (hb0 : 0 < beta) (hb2 : beta < 2) (hlen : p1.length = p2.length)
    (hs1 : p1.sum = 1) (hs2 : p2.sum = 1) :
    (sbxChildren beta p1 p2).1.sum = 1 ∧ (sbxChildren beta p1 p2).2.sum = 1 := by
  obtain ⟨h1, h2⟩ := sbxChildren_sum beta p1 p2 hlen
  constructor
  · rw [h1, hs1, hs2]; ring
  · rw [h2, hs1, hs2]; ring

/-- C6, witness: the pre-clip children of the parents `[1/2, 1/2]` and
`[1, 0]` with blend factor `beta = 1` both sum to 1. -/
theorem claim6_witness :
    ((0:ℚ) < 1 ∧ (1:ℚ) < 2 ∧ ([(1:ℚ)/2, 1/2].sum = 1) ∧ ([(1:ℚ), 0].sum = 1)) ∧
    (sbxChildren 1 [(1:ℚ)/2, 1/2] [1, 0]).1.sum = 1 ∧
    (sbxChildren 1 [(1:ℚ)/2, 1/2] [1, 0]).2.sum = 1 :=
  ⟨⟨by norm_num, by norm_num, by norm_num, by norm_num⟩,
   claim6_theorem 1 [1/2, 1/2] [1, 0] (by norm_num) (by norm_num)
     (by decide) (by norm_num) (by norm_num)⟩

/-- C8: the crossover and mutation operators repair the sum-to-one
invariant rather than merely preserving it.  For any input vectors with
nonnegative components and strictly positive sum (so possibly summing to
something other than 1), `SimplexCrossover._do` renormalizes both parents
before blending and `SimplexMutation._do` renormalizes the individual
before transferring weight, both clamp negative intermediates to zero
before their final normalization, and both return vectors summing
exactly to 1. -/
theorem claim8_theorem :
    (∀ (xl xu beta : ℚ) (p1 p2 : List ℚ), 0 < xu →
      (∀ c ∈ p1, 0 ≤ c) → (∀ c ∈ p2, 0 ≤ c) →
      0 < p1.sum → 0 < p2.sum → p1.length = p2.length →
      (simplexCrossover xl xu beta p1 p2).1.sum = 1 ∧
      (simplexCrossover xl xu beta p1 p2).2.sum = 1) ∧
    (∀ (xl xu delta : ℚ) (i j : ℕ) (x : List ℚ), 0 < xu → i ≠ j →
      i < x.length → j < x.length → (∀ c ∈ x, 0 ≤ c) → 0 < x.sum →
      (simplexMutation xl xu delta i j x).sum = 1) :=
  ⟨fun xl xu beta p1 p2 hu hnn1 hnn2 hs1 hs2 hlen =>
      simplexCrossover_sum xl xu beta p1 p2 hu hnn1 hnn2 hs1 hs2 hlen,
   fun xl xu delta i j x hu hij hi hj hnn hs =>
      simplexMutation_sum xl xu delta i j x hu hij hi hj hnn hs⟩

/-- C8, witness: both operators applied to inputs violating the
sum-to-one invariant (`[2, 1]` sums to 3, `[3, 1]` sums to 4) still
return vectors summing to 1. -/
theorem claim8_witness :
    ((0:ℚ) < [(2:ℚ), 1].sum ∧ (0:ℚ) < [(3:ℚ), 1].sum) ∧
    (simplexCrossover (1/100) 1 (3/2) [2, 1] [3, 1]).1.sum = 1 ∧
    (simplexCrossover (1/100) 1 (3/2) [2, 1] [3, 1]).2.sum = 1 ∧
    (simplexMutation (1/100) 1 (1/2) 0 1 [3, 1]).sum = 1 :=
  ⟨⟨by norm_num, by norm_num⟩,
   (claim8_theorem.1 (1/100) 1 (3/2) [2, 1] [3, 1] (by norm_num)
     (by norm_num) (by norm_num) (by norm_num) (by norm_num) (by decide)).1,
   (claim8_theorem.1 (1/100) 1 (3/2) [2, 1] [3, 1] (by norm_num)
     (by norm_num) (by norm_num) (by norm_num) (by norm_num) (by decide)).2,
   claim8_theorem.2 (1/100) 1 (1/2) 0 1 [3, 1] (by norm_num)
     (by decide) (by decide) (by decide) (by norm_num) (by norm_num)⟩

/-! ## Final composition step of `Nsga2OtimizacaoService.otimizar`
(`services/agmo/agmo_service.py`, lines 512-526)

The selected weight vector is filtered by `peso > 0.001`, and the
retained weights are renormalized by their sum `soma_pesos`. -/

/-- The retained weights: those strictly above the `0.001` drop
threshold. -/
def composicaoPesos (pesos : List ℚ) : List ℚ :=
  pesos.filter (fun w => decide ((1:ℚ)/1000 < w))

/-- `soma_pesos`, the renormalization divisor. -/
def somaPesos (pesos : List ℚ) : ℚ := (composicaoPesos pesos).sum

/-- The final renormalized composition. -/
def composicaoFinal (pesos : List ℚ) : List ℚ :=
  (composicaoPesos pesos).map (fun w => w / somaPesos pesos)

/-- C9: for every selected weight vector of length at most 999 with
nonnegative components summing to 1, at least one component strictly
exceeds the `0.001` threshold, so the retained-composition list is
non-empty and the divisor `soma_pesos` is strictly positive — the
concluding division is never a division by zero. -/
theorem claim9_theorem (pesos : List ℚ) (hn : pesos.length ≤ 999)
    (hnn : ∀ w ∈ pesos, 0 ≤ w) (hs : pesos.sum = 1) :
    composicaoPesos pesos ≠ [] ∧ 0 < somaPesos pesos := by
  have hex : ∃ w ∈ pesos, (1:ℚ)/1000 < w := by
    by_contra hno
    push_neg at hno
    have hle : pesos.sum ≤ pesos.length • ((1:ℚ)/1000) :=
      List.sum_le_card_nsmul pesos _ (fun x hx => hno x hx)
    rw [hs, nsmul_eq_mul] at hle
    have hcast : (pesos.length : ℚ) ≤ 999 := by exact_mod_cast hn
    nlinarith
  obtain ⟨w, hw, hwgt⟩ := hex
  have hmem : w ∈ composicaoPesos pesos := by
    simp only [composicaoPesos, List.mem_filter, decide_eq_true_eq]
    exact ⟨hw, hwgt⟩
  refine ⟨List.ne_nil_of_mem hmem, ?_⟩
  apply List.sum_pos
  · intro x hx
    simp only [composicaoPesos, List.mem_filter, decide_eq_true_eq] at hx
    linarith [hx.2]
  · exact List.ne_nil_of_mem hmem

/-- C9, witness: the vector `[1/2, 1/2]` keeps both components and has a
positive divisor. -/
theorem claim9_witness :
    (([(1:ℚ)/2, 1/2].length ≤ 999) ∧ ([(1:ℚ)/2, 1/2].sum = 1)) ∧
    composicaoPesos [1/2, 1/2] ≠ [] ∧ 0 < somaPesos [1/2, 1/2] :=
  ⟨⟨by decide, by norm_num⟩,
   claim9_theorem [1/2, 1/2] (by decide) (by norm_num) (by norm_num)⟩

/-! ## Front selection policy
(`Nsga2OtimizacaoService._escolher_melhor_carteira`,
`services/agmo/agmo_service.py`, lines 413-449)

The first objective column is negated back to larger-is-better, each
column is min-max normalized (zero-range columns get the neutral value
0.5), a weighted score is computed from a fixed per-profile weight table,
and the solution at the first index of maximal score is returned.

In the source, the CVaR term of the score is commented out:
`scores = ((objetivos_norm[:, 0] * pesos[0]) - (objetivos_norm[:, 1] * pesos[1]))`
with the line `- (objetivos_norm[:, 2] * pesos[2]))` disabled, even
though the comment directly above says the policy minimizes objectives 1
and 2. -/

/-- Investor risk profile. -/
inductive Perfil where
  | conservador
  | moderado
  | arrojado
deriving DecidableEq

/-- The fixed per-profile weight table `pesos_perfil`
(return, variance, CVaR). -/
def pesosPerfil : Perfil → ℚ × ℚ × ℚ
  | .conservador => (2/10, 5/10, 3/10)
  | .moderado => (4/10, 3/10, 3/10)
  | .arrojado => (6/10, 2/10, 2/10)

/-- `np.min` of a nonempty list (0 for the empty list, which numpy would
reject). -/
def listMin : List ℚ → ℚ
  | [] => 0
  | x :: xs => xs.foldl min x

/-- `np.max` of a nonempty list (0 for the empty list). -/
def listMax : List ℚ → ℚ
  | [] => 0
  | x :: xs => xs.foldl max x

/-- Min-max normalization of one objective column, with the neutral value
`0.5` when the column range is at most `1e-10`. -/
def normalizeColumn (c : List ℚ) : List ℚ :=
  let mn := listMin c
  let mx := listMax c
  if (1:ℚ)/10000000000 < mx - mn then c.map (fun x => (x - mn) / (mx - mn))
  else c.map (fun _ => 1/2)

/-- Column `j` of a row-major objective matrix. -/
def objCol (objetivos : List (List ℚ)) (j : ℕ) : List ℚ :=
  objetivos.map (fun row => row.getD j 0)

/-- `np.argmax`: index of the first occurrence of the maximum
(accumulator version). -/
def argmaxAux : List ℚ → ℕ → ℕ → ℚ → ℕ
  | [], _, bi, _ => bi
  | x :: xs, i, bi, bv =>
    if bv < x then argmaxAux xs (i+1) i x else argmaxAux xs (i+1) bi bv

/-- `np.argmax` over a list (0 for the empty list). -/
def argmaxIdx : List ℚ → ℕ
  | [] => 0
  | x :: xs => argmaxAux xs 1 0 x

/-- The per-solution scores exactly as the source computes them: the
first (return) column negated then min-max normalized, times the return
weight, minus the normalized variance column times the variance weight.
The CVaR column is normalized by the source's loop as well, but the CVaR
term of the score is commented out, so it does not appear. -/
def scoresEscolha (objetivos : List (List ℚ)) (perfil : Perfil) : List ℚ :=
  let w := pesosPerfil perfil
  let n0 := normalizeColumn ((objCol objetivos 0).map (fun v => -v))
  let n1 := normalizeColumn (objCol objetivos 1)
  List.zipWith (fun a b => a * w.1 - b * w.2.1) n0 n1

/-- `_escolher_melhor_carteira`: return the solution at the argmax of the
scores. -/
def escolherMelhorCarteira (objetivos : List (List ℚ)) (solucoes : List α)
    (perfil : Perfil) : Option α :=
  solucoes[argmaxIdx (scoresEscolha objetivos perfil)]?

/-- Modelled from the spec: the three-term score
`norm_return * w_return - norm_variance * w_variance - norm_cvar * w_cvar`
that the specification (and the source's own comment) describes. -/
def scoresEscolhaSpec (objetivos : List (List ℚ)) (perfil : Perfil) : List ℚ :=
  let w := pesosPerfil perfil
  let n0 := normalizeColumn ((objCol objetivos 0).map (fun v => -v))
  let n1 := normalizeColumn (objCol objetivos 1)
  let n2 := normalizeColumn (objCol objetivos 2)
  List.zipWith3 (fun a b c => a * w.1 - b * w.2.1 - c * w.2.2) n0 n1 n2

/-- Modelled from the spec: front selection with the full three-term
score. -/
def escolherMelhorCarteiraSpec (objetivos : List (List ℚ)) (solucoes : List α)
    (perfil : Perfil) : Option α :=
  solucoes[argmaxIdx (scoresEscolhaSpec objetivos perfil)]?

/-- A three-solution Pareto front on which the two-term score of the code
and the three-term score of the claim pick different solutions. -/
def frontC2 : List (List ℚ) := [[-1/2, 0, 1], [0, 0, 0], [-1, 1, 1]]

/-- C2: the source's score drops the CVaR term (it is commented out), so
the selection differs from the claimed three-term score.  On the front
`[[-1/2, 0, 1], [0, 0, 0], [-1, 1, 1]]` with the `moderado` weights
`(0.4, 0.3, 0.3)`, the code returns solution 0 while the claimed
three-term score selects solution 1. -/
theorem claim2_theorem :
    escolherMelhorCarteira frontC2 [0, 1, 2] Perfil.moderado = some 0 ∧
    escolherMelhorCarteiraSpec frontC2 [0, 1, 2] Perfil.moderado = some 1 := by
  constructor <;>
    norm_num [escolherMelhorCarteira, escolherMelhorCarteiraSpec,
      scoresEscolha, scoresEscolhaSpec, frontC2, objCol, normalizeColumn,
      listMin, listMax, pesosPerfil, argmaxIdx, argmaxAux, min_def, max_def,
      List.zipWith3]

/-! ## Hypervolume (`QualityMetrics.calculate_hypervolume`,
`services/agmo/quality_metrics.py`, lines 37-145)

The Monte-Carlo estimator's random sample set is an explicit argument. -/

/-- One front member dominates a point if it is `≤` in every objective
and `<` in at least one (`QualityMetrics._is_dominated_by_front`, inner
test). -/
def dominatesPoint (sol point : List ℚ) : Bool :=
  (List.zipWith (fun s p => decide (s ≤ p)) sol point).all id &&
  (List.zipWith (fun s p => decide (s < p)) sol point).any id

/-- `QualityMetrics._is_dominated_by_front`. -/
def isDominatedByFront (point : List ℚ) (front : List (List ℚ)) : Bool :=
  front.any (fun sol => dominatesPoint sol point)

/-- Componentwise minimum of the front (`np.min(pareto_front, axis=0)`). -/
def colMinBounds (front : List (List ℚ)) : List ℚ :=
  (List.range (front.headD []).length).map (fun j => listMin (objCol front j))

/-- `QualityMetrics._hypervolume_monte_carlo` with the random points
explicit: fraction of sampled points dominated by the front, times the
volume of the box between the best-per-objective corner and the reference
point. -/
def hypervolumeMonteCarlo (front : List (List ℚ)) (refPoint : List ℚ)
    (samples : List (List ℚ)) : ℚ :=
  let minBounds := colMinBounds front
  let boxVolume := (List.zipWith (fun r m => r - m) refPoint minBounds).prod
  let dominatedCount := samples.countP (fun p => isDominatedByFront p front)
  ((dominatedCount : ℚ) / (samples.length : ℚ)) * boxVolume

/-- `QualityMetrics._hypervolume_dominated_space`: sum of the individual
boxes between each solution and the reference point, normalized by the
number of solutions. -/
def hypervolumeDominatedSpace (front : List (List ℚ)) (refPoint : List ℚ) : ℚ :=
  let totalVolume := (front.map (fun sol =>
    let dims := List.zipWith (fun r s => r - s) refPoint sol
    if dims.all (fun d => decide (0 < d)) then dims.prod else 0)).sum
  if 0 < front.length then totalVolume / (front.length : ℚ) else 0

/-- `QualityMetrics.calculate_hypervolume`: 0 for an empty front,
otherwise the Monte-Carlo estimate for 3 objectives (auto reference point
`worst * 1.1` when none is supplied) and the dominated-space
approximation otherwise. -/
def calculateHypervolume (referencePoint : Option (List ℚ))
    (front : List (List ℚ)) (samples : List (List ℚ)) : ℚ :=
  if front.length = 0 then 0
  else
    let refPoint := match referencePoint with
      | none => (List.range (front.headD []).length).map
          (fun j => listMax (objCol front j) * (11/10))
      | some r => r
    if (front.headD []).length = 3 then
      hypervolumeMonteCarlo front refPoint samples
    else hypervolumeDominatedSpace front refPoint

/-- C10: `calculate_hypervolume` of an empty Pareto front returns exactly
0, for any reference-point setting (caller-supplied or automatic) and any
Monte-Carlo sample set, rather than raising an error. -/
theorem claim10_theorem (referencePoint : Option (List ℚ))
    (samples : List (List ℚ)) :
    calculateHypervolume referencePoint [] samples = 0 := rfl

/-! ## Configuration store lookup
(`HyperparameterConfig.get_optimal_config`,
`models/hyperparameter_config.py`, lines 117-161)

The store is modelled as an ordered list of rows; `.first()` of a
SQLAlchemy query without `order_by` is modelled as the first matching row
in store order, and `order_by(abs(num_ativos - n)).first()` as the first
row attaining the minimal absolute difference. -/

/-- The `'neutro'` risk profile name. -/
def neutroStr : String := "neutro"

/-- The `'moderado'` risk profile name. -/
def moderadoStr : String := "moderado"

/-- One row of the `hyperparameter_configs` table (the fields the lookup
reads, plus an id to tell rows apart). -/
structure HPRow where
  id : ℕ
  num_ativos : ℤ
  nivel_risco : String
  is_active : Bool
deriving DecidableEq

/-- `HyperparameterConfig.query.filter_by(num_ativos=n, nivel_risco=r,
is_active=True).first()`. -/
def filterByFirst (rows : List HPRow) (n : ℤ) (r : String) : Option HPRow :=
  rows.find? (fun row => row.num_ativos == n && row.nivel_risco == r && row.is_active)

/-- The probe loop `for offset in [0, 1, -1, 2, -2]`. -/
def probeOffsets (rows : List HPRow) (n : ℤ) (r : String) : Option HPRow :=
  [0, 1, -1, 2, -2].findSome? (fun off => filterByFirst rows (n + off) r)

/-- The last-resort query: active rows ordered by `abs(num_ativos - n)`,
first one taken. -/
def closestActive (rows : List HPRow) (n : ℤ) : Option HPRow :=
  (rows.filter (fun row => row.is_active)).foldl
    (fun best row =>
      match best with
      | none => some row
      | some b => if |row.num_ativos - n| < |b.num_ativos - n| then some row else some b)
    none

/-- `get_optimal_config(n, 'neutro')`: the body of the recursive call the
source makes when the requested profile finds nothing (the recursion
depth is at most one, so it is unrolled here). -/
def getOptimalConfigNeutro (rows : List HPRow) (n : ℤ) : Option HPRow :=
  match filterByFirst rows n neutroStr with
  | some c => some c
  | none =>
    match probeOffsets rows n neutroStr with
    | some c => some c
    | none => closestActive rows n

/-- `HyperparameterConfig.get_optimal_config`: exact active match, then
the offset probes, then the whole chain under `'neutro'`, then the
numerically closest active row. -/
def getOptimalConfig (rows : List HPRow) (n : ℤ) (r : String) : Option HPRow :=
  match filterByFirst rows n r with
  | some c => some c
  | none =>
    match probeOffsets rows n r with
    | some c => some c
    | none =>
      if r = neutroStr then closestActive rows n
      else getOptimalConfigNeutro rows n

/-- The active config stored for 10 assets in the C4 example store. -/
def rowC4at10 : HPRow := ⟨1, 10, neutroStr, true⟩

/-- The active config stored for 20 assets in the C4 example store. -/
def rowC4at20 : HPRow := ⟨2, 20, neutroStr, true⟩

/-- A store holding active configurations only at asset counts 10 and 20. -/
def storeC4 : List HPRow := [rowC4at10, rowC4at20]

/-- C4: the lookup chain (exact active match, offsets 0, +1, -1, +2, -2,
retry under 'neutro', closest active row) returns an explicit none when
the store has no active configuration — it never raises; and
`lookup_config(12, 'neutro')` against a store with active configs only at
asset counts 10 and 20 returns the config for 10 (reached by the -2
probe). -/
theorem claim4_theorem :
    (∀ (rows : List HPRow) (n : ℤ) (r : String),
      (∀ row ∈ rows, row.is_active = false) → getOptimalConfig rows n r = none) ∧
    getOptimalConfig storeC4 12 neutroStr = some rowC4at10 := by
  constructor
  · intro rows n r h
    have hfb : ∀ (m : ℤ) (s : String), filterByFirst rows m s = none := by
      intro m s
      apply List.find?_eq_none.mpr
      intro row hrow
      simp [h row hrow]
    have hpo : ∀ (m : ℤ) (s : String), probeOffsets rows m s = none := by
      intro m s
      simp [probeOffsets, hfb]
    have hca : closestActive rows n = none := by
      have hfil : rows.filter (fun row => row.is_active) = [] := by
        apply List.filter_eq_nil_iff.mpr
        intro a ha
        simp [h a ha]
      simp [closestActive, hfil]
    simp only [getOptimalConfig, getOptimalConfigNeutro, hfb, hpo]
    split_ifs <;> exact hca
  · decide

/-- C4, witness: the no-active-configuration branch of the theorem,
applied to a store whose only row is inactive. -/
theorem claim4_witness :
    (∀ row ∈ [(⟨1, 10, neutroStr, false⟩ : HPRow)], row.is_active = false) ∧
    getOptimalConfig [(⟨1, 10, neutroStr, false⟩ : HPRow)] 12 neutroStr = none :=
  ⟨by decide, claim4_theorem.1 _ 12 neutroStr (by decide)⟩

/-! ## Persist step of the tuning service
(`HyperparameterTuningService.save_optimal_configs_to_db`,
`services/agmo/hyperparameter_tuning_service.py`, lines 748-812, and the
table constraint `uq_num_ativos_nivel_risco` in
`models/hyperparameter_config.py`, lines 25-27)

For each configuration the service looks up the first existing row with
the same `(num_ativos, nivel_risco)` key (active or not), sets its
`is_active = False`, inserts a fresh active row, and commits once at the
end.  The table declares `UniqueConstraint('num_ativos', 'nivel_risco')`,
which the database enforces at commit over all rows, active or not. -/

/-- One row of the configuration table, as written by the persist step. -/
structure CfgRow where
  num_ativos : ℤ
  nivel_risco : String
  is_active : Bool
  population_size : ℕ
  generations : ℕ
deriving DecidableEq

/-- Deactivate the first row matching the key, as
`query.filter_by(num_ativos=n, nivel_risco=r).first()` followed by
`existing.is_active = False` does. -/
def deactivateFirstMatch : List CfgRow → ℤ → String → List CfgRow
  | [], _, _ => []
  | row :: rest, n, r =>
    if row.num_ativos = n ∧ row.nivel_risco = r then
      { row with is_active := false } :: rest
    else row :: deactivateFirstMatch rest n r

/-- One iteration of the persist loop: deactivate the prior row for the
key if present, then add the new configuration as an active row. -/
def saveOne (rows : List CfgRow) (cfg : CfgRow) : List CfgRow :=
  deactivateFirstMatch rows cfg.num_ativos cfg.nivel_risco ++
    [{ cfg with is_active := true }]

/-- The error message modelling the IntegrityError the database raises
when `uq_num_ativos_nivel_risco` is violated. -/
def integrityErrorStr : String := "IntegrityError: uq_num_ativos_nivel_risco"

/-- `db.session.commit()`: succeeds iff no two rows (active or inactive)
share the `(num_ativos, nivel_risco)` key declared unique by
`__table_args__`. -/
def commitRows (rows : List CfgRow) : Except String (List CfgRow) :=
  if (rows.map (fun r => (r.num_ativos, r.nivel_risco))).Nodup then .ok rows
  else .error integrityErrorStr

/-- `save_optimal_configs_to_db`: run the deactivate-and-insert loop over
the dataframe rows, then commit once. -/
def saveOptimalConfigsToDb (rows : List CfgRow) (dfOptimal : List CfgRow) :
    Except String (List CfgRow) :=
  commitRows (dfOptimal.foldl saveOne rows)

/-- The configuration already stored for (10, 'moderado'). -/
def oldCfgC5 : CfgRow := ⟨10, moderadoStr, true, 100, 50⟩

/-- The newly tuned configuration for the same (10, 'moderado') key. -/
def newCfgC5 : CfgRow := ⟨10, moderadoStr, true, 150, 80⟩

/-- C5: the persist step does deactivate the prior row (it stays stored,
inactive) and add the new configuration as the active row, but the
sequence does NOT complete without error: the old (now inactive) row and
the new row share the `(num_ativos, nivel_risco)` key declared unique by
`uq_num_ativos_nivel_risco`, so the commit fails — re-running the persist
step over an existing key is not a safe retry. -/
theorem claim5_theorem :
    [newCfgC5].foldl saveOne [oldCfgC5] =
      [(⟨10, moderadoStr, false, 100, 50⟩ : CfgRow), newCfgC5] ∧
    saveOptimalConfigsToDb [oldCfgC5] [newCfgC5] = .error integrityErrorStr :=
  ⟨rfl, rfl⟩

/-! ## CVaR (`PersonalizedPortfolioProblem._calcular_cvar`,
`services/agmo/agmo_service.py`, lines 94-108)

The function receives the portfolio loss observations (`perdas`, the
negated per-period portfolio returns).  The `np.isfinite` filter is the
identity in the real-number model, where every value is finite.  With
fewer than 20 observations it falls back to `np.std` of the losses;
otherwise it sorts the losses ascending, takes the
`k = max(1, int(alpha * n))` largest and returns their mean. -/

/-- Arithmetic mean of a list (`np.mean`; division by zero for the empty
list, as in numpy's nan, is irrelevant to the claims). -/
noncomputable def meanR (l : List ℝ) : ℝ := l.sum / l.length

/-- `np.std`: square root of the mean squared deviation from the mean. -/
noncomputable def npStd (l : List ℝ) : ℝ :=
  Real.sqrt ((l.map (fun x => (x - meanR l)^2)).sum / l.length)

/-- `perdas_ordenadas[-k:].mean()`: the mean of the last `k` entries of
the (ascending) sorted loss list. -/
noncomputable def cvarTailMean (sorted : List ℝ) (k : ℕ) : ℝ :=
  (sorted.drop (sorted.length - k)).sum / ((sorted.drop (sorted.length - k)).length : ℝ)

/-- `PersonalizedPortfolioProblem._calcular_cvar` on the loss list. -/
noncomputable def calcularCvar (perdas : List ℝ) (alpha : ℝ) : ℝ :=
  if perdas.length < 20 then npStd perdas
  else cvarTailMean (List.insertionSort (· ≤ ·) perdas)
    (max 1 (⌊alpha * (perdas.length : ℝ)⌋).toNat)

/-- C3, counterexample.  On the synthetic loss sample `[1, 2, 3, 4, 5]`
with `alpha = 0.2` the code takes the fewer-than-20-observations fallback
and returns the standard deviation `sqrt 2 ≈ 1.41`, not 5 — and
`sqrt 2` is below the mean loss 3, so the claimed `CVaR ≥ mean loss` also
fails on this input. -/
theorem claim3_counterexample :
    calcularCvar [1, 2, 3, 4, 5] (1/5) = Real.sqrt 2 ∧
    Real.sqrt 2 < ([1, 2, 3, 4, 5] : List ℝ).sum / 5 ∧
    calcularCvar [1, 2, 3, 4, 5] (1/5) ≠ 5 := by
  have hsqrt2 : Real.sqrt 2 ^ 2 = 2 := Real.sq_sqrt (by norm_num)
  have hlt3 : Real.sqrt 2 < 3 := by
    nlinarith [Real.sqrt_nonneg 2, hsqrt2]
  have hlen : ([1, 2, 3, 4, 5] : List ℝ).length < 20 := by decide
  have hval : calcularCvar [1, 2, 3, 4, 5] (1/5) = Real.sqrt 2 := by
    rw [calcularCvar, if_pos hlen]
    unfold npStd meanR
    norm_num
  refine ⟨hval, ?_, ?_⟩
  · have hsum : ([1, 2, 3, 4, 5] : List ℝ).sum / 5 = 3 := by norm_num
    rw [hsum]; exact hlt3
  · rw [hval]; intro h; rw [h] at hsqrt2; norm_num at hsqrt2

/-- A single value below every element of a list bounds the list sum from
below. -/
theorem mul_length_le_sum (x : ℝ) (b : List ℝ) (h : ∀ y ∈ b, x ≤ y) :
    x * (b.length : ℝ) ≤ b.sum := by
  induction b with
  | nil => simp
  | cons y ys ih =>
    have h1 : x ≤ y := h y (by simp)
    have h2 : x * (ys.length : ℝ) ≤ ys.sum := ih (fun z hz => h z (by simp [hz]))
    simp only [List.length_cons, List.sum_cons, Nat.cast_succ]
    nlinarith

/-- If every element of `a` is at most every element of `b`, the
length-weighted sums compare accordingly. -/
theorem sum_mul_length_le (a b : List ℝ) (h : ∀ x ∈ a, ∀ y ∈ b, x ≤ y) :
    a.sum * (b.length : ℝ) ≤ b.sum * (a.length : ℝ) := by
  induction a with
  | nil => simp
  | cons x xs ih =>
    have h1 : x * (b.length : ℝ) ≤ b.sum := mul_length_le_sum x b (h x (by simp))
    have h2 : xs.sum * (b.length : ℝ) ≤ b.sum * (xs.length : ℝ) :=
      ih (fun z hz => h z (by simp [hz]))
    simp only [List.sum_cons, List.length_cons, Nat.cast_succ]
    nlinarith

/-- The mean of the last `k` entries of an ascending-sorted list is at
least the mean of the whole list. -/
theorem sorted_suffix_mean_ge (s : List ℝ) (k : ℕ) (hs : s.Sorted (· ≤ ·))
    (hk1 : 1 ≤ k) (hkn : k ≤ s.length) :
    s.sum / (s.length : ℝ) ≤ (s.drop (s.length - k)).sum / (k : ℝ) := by
  set m := s.length - k with hm
  have hsplit : s.take m ++ s.drop m = s := List.take_append_drop m s
  have hlen_take : (s.take m).length = m := by
    rw [List.length_take]; omega
  have hlen_drop : (s.drop m).length = k := by
    rw [List.length_drop]; omega
  have hcross : ∀ x ∈ s.take m, ∀ y ∈ s.drop m, x ≤ y := by
    have hs' := hs
    rw [← hsplit] at hs'
    exact (List.pairwise_append.mp hs').2.2
  have hmain : (s.take m).sum * (k : ℝ) ≤ (s.drop m).sum * (m : ℝ) := by
    have hineq := sum_mul_length_le (s.take m) (s.drop m) hcross
    rwa [hlen_take, hlen_drop] at hineq
  have hnpos : (0:ℝ) < (s.length : ℝ) := by
    have : 0 < s.length := by omega
    exact_mod_cast this
  have hkpos : (0:ℝ) < (k : ℝ) := by
    have : 0 < k := by omega
    exact_mod_cast this
  rw [div_le_div_iff₀ hnpos hkpos]
  have hsum : (s.take m).sum + (s.drop m).sum = s.sum := by
    rw [← List.sum_append, hsplit]
  have hlencast : (s.length : ℝ) = (m : ℝ) + (k : ℝ) := by
    have hmk : s.length = m + k := by omega
    rw [hmk]; push_cast; ring
  rw [← hsum, hlencast]
  nlinarith

/-- C3, amended.  The fewer-than-20-observations fallback returns the
standard deviation of the losses, which can be below the mean loss; in
the main branch (at least 20 finite observations, tail quantile
`0 ≤ alpha ≤ 1`) the CVaR is the mean of the `k = max(1, floor(alpha*n))`
largest losses and satisfies `CVaR ≥ mean loss`.  The sample
`[1, 2, 3, 4, 5]` falls into the fallback branch and yields `sqrt 2`,
not 5. -/
theorem claim3_theorem (perdas : List ℝ) (alpha : ℝ)
    (h20 : 20 ≤ perdas.length) (h0 : 0 ≤ alpha) (h1 : alpha ≤ 1) :
    perdas.sum / (perdas.length : ℝ) ≤ calcularCvar perdas alpha := by
  have hnot : ¬ perdas.length < 20 := by omega
  rw [calcularCvar, if_neg hnot]
  set s := List.insertionSort (· ≤ ·) perdas with hs_def
  have hperm : s.Perm perdas := List.perm_insertionSort _ _
  have hsorted : s.Sorted (· ≤ ·) := List.sorted_insertionSort _ _
  have hlen : s.length = perdas.length := hperm.length_eq
  have hsum : s.sum = perdas.sum := hperm.sum_eq
  set k := max 1 (⌊alpha * (perdas.length : ℝ)⌋).toNat with hk_def
  have hk1 : 1 ≤ k := le_max_left _ _
  have hkn : k ≤ s.length := by
    rw [hlen]
    apply max_le
    · omega
    · have hcastnn : (0:ℝ) ≤ (perdas.length : ℝ) := Nat.cast_nonneg _
      have hle : alpha * (perdas.length : ℝ) ≤ (perdas.length : ℝ) := by
        nlinarith
      have hfl : (⌊alpha * (perdas.length : ℝ)⌋ : ℝ) ≤ (perdas.length : ℝ) :=
        le_trans (Int.floor_le _) hle
      have hfl' : ⌊alpha * (perdas.length : ℝ)⌋ ≤ (perdas.length : ℤ) := by
        exact_mod_cast hfl
      exact_mod_cast Int.toNat_le.mpr hfl'
  have hdroplen : ((s.drop (s.length - k)).length : ℝ) = (k : ℝ) := by
    rw [List.length_drop]
    have hsub : s.length - (s.length - k) = k := by omega
    rw [hsub]
  have hmean := sorted_suffix_mean_ge s k hsorted hk1 hkn
  rw [cvarTailMean, hdroplen, ← hlen, ← hsum]
  exact hmean

/-- C3, witness: twenty loss observations, all equal to 1, with
`alpha = 0.05`: the tail mean is at least the mean loss. -/
theorem claim3_witness :
    (20 ≤ (List.replicate 20 (1:ℝ)).length ∧ (0:ℝ) ≤ 1/20 ∧ (1/20 : ℝ) ≤ 1) ∧
    (List.replicate 20 (1:ℝ)).sum / ((List.replicate 20 (1:ℝ)).length : ℝ) ≤
      calcularCvar (List.replicate 20 (1:ℝ)) (1/20) :=
  ⟨⟨by simp, by norm_num, by norm_num⟩,
   claim3_theorem (List.replicate 20 1) (1/20) (by simp) (by norm_num) (by norm_num)⟩

/-! ## Spread and spacing (`QualityMetrics.calculate_spread` and
`QualityMetrics.calculate_spacing`,
`services/agmo/quality_metrics.py`, lines 147-235)

`calculate_spread` returns Python's `float('inf')` for fronts with fewer
than two points; the return type is therefore modelled as `WithTop ℝ`,
with `⊤` standing for `+infinity`. -/

/-- `np.linalg.norm(a - b)`: Euclidean distance of two objective rows. -/
noncomputable def eucDist (a b : List ℝ) : ℝ :=
  Real.sqrt ((List.zipWith (fun x y => (x - y)^2) a b).sum)

/-- `np.min` over reals (0 on the empty list, which numpy rejects). -/
noncomputable def listMinR : List ℝ → ℝ
  | [] => 0
  | x :: xs => xs.foldl min x

/-- `np.max` over reals (0 on the empty list). -/
noncomputable def listMaxR : List ℝ → ℝ
  | [] => 0
  | x :: xs => xs.foldl max x

/-- Column `j` of a row-major real matrix. -/
def objColR (front : List (List ℝ)) (j : ℕ) : List ℝ :=
  front.map (fun row => row.getD j 0)

/-- `QualityMetrics._normalize_front`: min-max normalization per
objective, with zero ranges replaced by 1. -/
noncomputable def normalizeFront (front : List (List ℝ)) : List (List ℝ) :=
  front.map (fun row =>
    (List.range (front.headD []).length).map (fun j =>
      (row.getD j 0 - listMinR (objColR front j)) /
        (if listMaxR (objColR front j) - listMinR (objColR front j) = 0 then 1
         else listMaxR (objColR front j) - listMinR (objColR front j))))

/-- `np.argmin` accumulator: index of the first occurrence of the
minimum. -/
noncomputable def argminIdxAux : List ℝ → ℕ → ℕ → ℝ → ℕ
  | [], _, bi, _ => bi
  | x :: xs, i, bi, bv =>
    if x < bv then argminIdxAux xs (i+1) i x else argminIdxAux xs (i+1) bi bv

/-- `np.argmin` over a list of reals (0 for the empty list). -/
noncomputable def argminIdxR : List ℝ → ℕ
  | [] => 0
  | x :: xs => argminIdxAux xs 1 0 x

/-- Ordering of objective rows by their first component, used to sort the
front (`np.argsort(normalized_front[:, 0])`). -/
def rowLE (a b : List ℝ) : Prop := a.getD 0 0 ≤ b.getD 0 0

noncomputable instance : DecidableRel rowLE := fun a b => Real.decidableLE _ _

/-- `QualityMetrics.calculate_spread`: `+infinity` (modelled by `⊤`) for
fronts with fewer than two points; otherwise the Deb spread metric over
the normalized front sorted by the first objective. -/
noncomputable def calculateSpread (front : List (List ℝ)) : WithTop ℝ :=
  if front.length < 2 then ⊤
  else
    let nObj := (front.headD []).length
    let nf := normalizeFront front
    let extremes := (List.range nObj).map (fun j => nf.getD (argminIdxR (objColR nf j)) [])
    let sortedFront := List.insertionSort rowLE nf
    let dists := List.zipWith eucDist sortedFront sortedFront.tail
    if dists.length = 0 then ((0 : ℝ) : WithTop ℝ)
    else
      let dMean := dists.sum / (dists.length : ℝ)
      let dFirst := eucDist (sortedFront.headD []) (extremes.headD [])
      let dLast := eucDist (sortedFront.getLastD []) (extremes.getLastD [])
      let numera := dFirst + dLast + (dists.map (fun d => |d - dMean|)).sum
      let denom := dFirst + dLast + (dists.length : ℝ) * dMean
      if 0 < denom then ((numera / denom : ℝ) : WithTop ℝ) else ((0 : ℝ) : WithTop ℝ)

/-- `QualityMetrics.calculate_spacing`: 0 for fronts with fewer than two
points; otherwise the standard deviation of each point's
nearest-neighbour Euclidean distance in raw objective space. -/
noncomputable def calculateSpacing (front : List (List ℝ)) : ℝ :=
  if front.length < 2 then 0
  else
    let minDists := (List.range front.length).filterMap (fun i =>
      let dists := ((List.range front.length).filter (fun j => j != i)).map
        (fun j => eucDist (front.getD i []) (front.getD j []))
      if dists.length = 0 then none else some (listMinR dists))
    if minDists.length = 0 then 0 else npStd minDists

/-- C7: for every Pareto front containing exactly one point, the spacing
metric returns 0 and the spread metric returns `+infinity` (`⊤`). -/
theorem claim7_theorem (front : List (List ℝ)) (h : front.length = 1) :
    calculateSpacing front = 0 ∧ calculateSpread front = ⊤ := by
  have h2 : front.length < 2 := by omega
  constructor
  · simp [calculateSpacing, h2]
  · simp [calculateSpread, h2]

/-- C7, witness: the one-point front `[[1, 2, 3]]`. -/
theorem claim7_witness :
    (([[(1:ℝ), 2, 3]] : List (List ℝ)).length = 1) ∧
    calculateSpacing [[(1:ℝ), 2, 3]] = 0 ∧
    calculateSpread [[(1:ℝ), 2, 3]] = ⊤ :=
  ⟨rfl, (claim7_theorem [[(1:ℝ), 2, 3]] rfl).1, (claim7_theorem [[(1:ℝ), 2, 3]] rfl).2⟩

end TCC
